import Mathlib

/-!
Verification development for the json-schema-go repository.

The Go sources are shallowly embedded below:
* `parser.go` — the recursive-descent schema parser (`parser.Parse`,
  `parseJSONType`) together with the older `Validator.IsValid`
  (numeric / string / type keyword checks, `assertSimpleType`).
* `vm.go` and the vm revision shipped inside `validator_test.go` — the
  validation executor (`execSchema`, the token-stack helpers
  `pushSchemaToken` / `popSchemaToken` / `pushInstanceToken` /
  `popInstanceToken`, `reportError`).
* Components that the repository's tests exercise but whose sources are
  not present (the registry store, the seal pass, `Validate` with
  `MaxErrors` / `MaxStackDepth`, the URI / JSON-Pointer utility) are
  modelled from the specification; each such definition carries a doc
  comment starting with `Modelled from the spec:`.

Go `float64` instance values are embedded as rationals `ℚ`; machine
floating point is not needed by any of the checked properties, which
only evaluate the code on small exact values.
-/

namespace JsonSchemaGo

mutual

/-- Decoded JSON values (the instance / raw-document model consumed by the
core, per spec §6: null / bool / number / string / ordered sequence /
ordered-key mapping).  Arrays and objects are given by the mutually
defined spine types `JsonArr` / `JsonObj` so that all recursion over them
is structural. -/
inductive Json where
  | null : Json
  | bool (b : Bool) : Json
  | num (q : ℚ) : Json
  | str (s : String) : Json
  | arr (a : JsonArr) : Json
  | obj (o : JsonObj) : Json

/-- Spine of a JSON array. -/
inductive JsonArr where
  | nil : JsonArr
  | cons (hd : Json) (tl : JsonArr) : JsonArr

/-- Spine of a JSON object: an ordered list of key/value bindings. -/
inductive JsonObj where
  | nil : JsonObj
  | cons (key : String) (val : Json) (tl : JsonObj) : JsonObj

end

/-- Go `map[string]interface{}` key lookup. -/
def JsonObj.lookup : JsonObj → String → Option Json
  | .nil, _ => none
  | .cons k v tl, key => if k = key then some v else tl.lookup key

/-- Remove every binding of `key` (used to state that a key is ignored). -/
def JsonObj.erase : JsonObj → String → JsonObj
  | .nil, _ => .nil
  | .cons k v tl, key => if k = key then tl.erase key else .cons k v (tl.erase key)

/-- Length of a JSON array spine. -/
def JsonArr.length : JsonArr → Nat
  | .nil => 0
  | .cons _ tl => tl.length + 1

/-- Append of JSON array spines. -/
def JsonArr.append : JsonArr → JsonArr → JsonArr
  | .nil, b => b
  | .cons h tl, b => .cons h (tl.append b)

/-- Runtime type tag of an instance (the switch discriminator of
`execSchema`; numbers carry the single `number` tag). -/
inductive JsonTypeT where
  | null | boolean | number | integer | string | array | object
deriving DecidableEq, Repr

/-- Modelled from the spec: the URI utility (`net/url` is an external
collaborator, spec §2).  A URL is kept as the raw text before the `#`
(scheme, host and path together) plus the fragment. -/
structure URL where
  pre : String := ""
  fragment : String := ""
deriving DecidableEq, Repr

instance : Inhabited URL := ⟨{}⟩

/-- Modelled from the spec: split a URI reference at its first `#`
(`url.Parse` separates the fragment from the rest). -/
def splitHash (s : String) : String × String :=
  let cs := s.toList
  let pre := cs.takeWhile (· ≠ '#')
  let rest := cs.dropWhile (· ≠ '#')
  (⟨pre⟩, ⟨rest.drop 1⟩)

/-- Modelled from the spec: `url.Parse` on an absolute-or-fragment URI
reference. -/
def parseURL (s : String) : URL :=
  let (p, f) := splitHash s
  { pre := p, fragment := f }

/-- Modelled from the spec: RFC 3986 path merge for a relative
reference (drop everything after the base's last `/`, append). -/
def mergeRelPath (base rel : String) : String :=
  let b := base.toList
  ⟨(b.reverse.dropWhile (· ≠ '/')).reverse ++ rel.toList⟩

/-- Modelled from the spec: RFC 3986 reference resolution
(`p.baseURI.Parse(refStr)` in `parser.Parse`): a reference carrying a
scheme is absolute; an empty pre-fragment part keeps the base; otherwise
the relative path is merged into the base. -/
def resolveRef (base : URL) (ref : String) : URL :=
  let (p, f) := splitHash ref
  if p = "" then { pre := base.pre, fragment := f }
  else if p.toList.contains ':' then { pre := p, fragment := f }
  else { pre := mergeRelPath base.pre p, fragment := f }

/-- Split a character list on `/`, accumulating the current token. -/
def splitSlashAux : List Char → List Char → List String
  | [], cur => [⟨cur.reverse⟩]
  | '/' :: rest, cur => (⟨cur.reverse⟩ : String) :: splitSlashAux rest []
  | c :: rest, cur => splitSlashAux rest (c :: cur)

/-- Modelled from the spec: `jsonpointer.New` — `""` is the empty
pointer, otherwise the fragment must start with `/` and is split on `/`
(RFC 6901; token escaping is not exercised by any checked input). -/
def ptrParse (s : String) : Option (List String) :=
  if s = "" then some []
  else match s.toList with
    | '/' :: rest => some (splitSlashAux rest [])
    | _ => none

/-- Modelled from the spec: `jsonpointer.Ptr.String` — `""` for the
empty pointer, otherwise `/`-prefixed tokens. -/
def ptrToString (toks : List String) : String :=
  toks.foldl (fun acc t => acc ++ "/" ++ t) ""

/-- Source `schemaRef` (parser.go): a deferred `$ref` — the resolved target URI,
the target with its fragment stripped (`BaseURI`), and the fragment as a
JSON Pointer.  The `Schema int` index field is filled in by the seal
pass, which is not part of the parser. -/
structure SchemaRef where
  IsSet : Bool := false
  URI : URL := {}
  BaseURI : URL := {}
  Ptr : List String := []
deriving DecidableEq, Repr

/-- Source `schemaType` (parser.go).  The Go field `Types []jsonType`. -/
structure SchemaTypeP where
  IsSet : Bool := false
  IsSingle : Bool := false
  Types : List JsonTypeT := []
deriving DecidableEq, Repr

/-- Source `schemaItems` (parser.go): nested sub-schemas are stored by registry
index, never by embedding. -/
structure SchemaItemsP where
  IsSet : Bool := false
  IsSingle : Bool := false
  Schemas : List Nat := []
deriving DecidableEq, Repr

/-- Source `schema` (parser.go).  The Go field `Type` is spelled `Typ` (`Type`
is a Lean keyword); `ID` is the zero URL unless the root carried `$id`. -/
structure SchemaP where
  ID : URL := {}
  Ref : SchemaRef := {}
  Typ : SchemaTypeP := {}
  Items : SchemaItemsP := {}
deriving DecidableEq, Repr

/-- Modelled from the spec: the Registry (§4.2) — an append-only
indexed store of schema nodes keyed by canonical URI.  `insert` appends
and returns the new index; the type of the store itself is absent from
src (only `registry.Insert` / `registry.GetIndex` call sites exist). -/
abbrev Registry := List (URL × SchemaP)

/-- Parse errors (`invalidTypeValue()`, `schemaNotObject()`, … in
parser.go).  `outOfFuel` is an artifact of the fuelled embedding and is
never returned for adequate fuel. -/
inductive PErr where
  | idNotString | refNotString | invalidURI | refFragmentNotPointer
  | invalidTypeValue | schemaNotObject | outOfFuel
deriving DecidableEq, Repr

/-- Source `parseJSONType` (parser.go). -/
def parseJSONType (typ : String) : Except PErr JsonTypeT :=
  if typ = "null" then .ok .null
  else if typ = "boolean" then .ok .boolean
  else if typ = "number" then .ok .number
  else if typ = "integer" then .ok .integer
  else if typ = "string" then .ok .string
  else if typ = "array" then .ok .array
  else if typ = "object" then .ok .object
  else .error .invalidTypeValue

/-- The `[]interface{}` arm of the `type` keyword: every element must be
a string naming a primitive type. -/
def parseTypeArr : JsonArr → Except PErr (List JsonTypeT)
  | .nil => .ok []
  | .cons (.str s) tl => do
      let t ← parseJSONType s
      let ts ← parseTypeArr tl
      .ok (t :: ts)
  | .cons _ _ => .error .invalidTypeValue

/-- The loop body of the `[]interface{}` arm of `items` (parser.go):
for each element, push its index token, require an object, recurse, pop.
The sub-schema parse is passed in as `sub` (it is `parseF` at one less
fuel); the registry threads through the iterations. -/
def parseTupleItems
    (sub : Registry → List String → JsonObj → Except PErr (Nat × Registry)) :
    Registry → List String → Nat → JsonArr → Except PErr (List Nat × Registry)
  | reg, _, _, .nil => .ok ([], reg)
  | reg, toks, i, .cons item rest =>
      match item with
      | .obj m => do
          let (c, reg') ← sub reg (toks ++ [toString i]) m
          let (cs, reg'') ← parseTupleItems sub reg' toks (i + 1) rest
          .ok (c :: cs, reg'')
      | _ => .error .schemaNotObject

/-- The `$id` block of `parser.Parse`: consulted only when the token
stack is empty (`if len(p.tokens) == 0`); returns the (possibly updated)
base URI and the node's `ID` field (zero URL when unset). -/
def parseIdStep (toks : List String) (base0 : URL) (input : JsonObj) :
    Except PErr (URL × URL) :=
  if toks = [] then
    match input.lookup "$id" with
    | none => .ok (base0, ({} : URL))
    | some (.str idStr) =>
        let uri := parseURL idStr
        .ok (uri, uri)
    | some _ => .error .idNotString
  else .ok (base0, ({} : URL))

/-- The `$ref` block of `parser.Parse`: the reference string is resolved
against the current base URI, its fragment is stripped into `BaseURI`
and parsed as a JSON pointer; no registry lookup happens (deferred
resolution). -/
def parseRefStep (base : URL) (input : JsonObj) : Except PErr SchemaRef :=
  match input.lookup "$ref" with
  | none => .ok ({} : SchemaRef)
  | some (.str refStr) =>
      let uri := resolveRef base refStr
      let refBaseURI : URL := { uri with fragment := "" }
      match ptrParse uri.fragment with
      | none => .error .refFragmentNotPointer
      | some ptr =>
          .ok { IsSet := true, URI := uri, BaseURI := refBaseURI, Ptr := ptr }
  | some _ => .error .refNotString

/-- The `type` block of `parser.Parse`: a single string or an array of
strings naming primitive types. -/
def parseTypeStep (input : JsonObj) : Except PErr SchemaTypeP :=
  match input.lookup "type" with
  | none => .ok ({} : SchemaTypeP)
  | some (.str t) => do
      let jt ← parseJSONType t
      .ok { IsSet := true, IsSingle := true, Types := [jt] }
  | some (.arr a) => do
      let ts ← parseTypeArr a
      .ok { IsSet := true, IsSingle := false, Types := ts }
  | some _ => .error .invalidTypeValue

/-- The `items` block of `parser.Parse`: a single object sub-schema or a
tuple of object sub-schemas, each parsed (via `sub`, which is the parser
itself at one less fuel) and inserted into the registry before the
parent; the parent records only the child indices. -/
def parseItemsStep
    (sub : Registry → List String → JsonObj → Except PErr (Nat × Registry))
    (reg0 : Registry) (toks : List String) (input : JsonObj) :
    Except PErr (SchemaItemsP × Registry) :=
  match input.lookup "items" with
  | none => .ok (({} : SchemaItemsP), reg0)
  | some (.obj m) => do
      let (c, reg') ← sub reg0 (toks ++ ["items"]) m
      .ok ({ IsSet := true, IsSingle := true, Schemas := [c] }, reg')
  | some (.arr a) => do
      let (cs, reg') ← parseTupleItems sub reg0 (toks ++ ["items"]) 0 a
      .ok ({ IsSet := true, IsSingle := false, Schemas := cs }, reg')
  | some _ => .error .schemaNotObject

/-- Source `parser.Parse` (parser.go), fuelled to make the recursion over raw
sub-documents structural.  The parser state is the shared registry, the
current base URI and the current pointer-token stack; the function
returns the index of the node it inserted together with the grown
registry.  As in the source: `$id` is consulted only when the token
stack is empty (the document root); `$ref` resolution is deferred (only
the resolved target URI is recorded); the node itself is inserted only
after all of its `items` sub-schemas have been parsed and inserted. -/
def parseF : Nat → Registry → URL → List String → JsonObj →
    Except PErr (Nat × Registry)
  | 0, _, _, _, _ => .error .outOfFuel
  | n + 1, reg0, base0, toks, input => do
      let (base, sid) ← parseIdStep toks base0 input
      let ref ← parseRefStep base input
      let typ ← parseTypeStep input
      let (items, reg1) ←
        parseItemsStep (fun r t o => parseF n r base t o) reg0 toks input
      let s : SchemaP := { ID := sid, Ref := ref, Typ := typ, Items := items }
      -- `index := p.registry.Insert(p.URI(), s)` — insertion happens last
      let selfURI : URL := { pre := base.pre, fragment := ptrToString toks }
      .ok (reg1.length, reg1 ++ [(selfURI, s)])

/-- Source `parseRootSchema` (parser.go): parse a document with an empty base
URI, an empty token stack and the given registry.  Fuel 32 exceeds the
nesting depth of every document in this development. -/
def parseRootSchema (reg : Registry) (input : JsonObj) :
    Except PErr (Nat × Registry) :=
  parseF 32 reg {} [] input

/-- Modelled from the spec: whether some registered schema node's
id / root URI matches an absolute (fragment-free) target URI.  Root
nodes (and `$id` roots) are exactly the entries keyed with an empty
fragment. -/
def definedInRegistry (reg : Registry) (uri : URL) : Bool :=
  reg.any fun e => e.1.pre == uri.pre && e.1.fragment == ""

/-- Modelled from the spec: the seal pass — iterate every inserted
node in insertion order and collect, for every `$ref` whose
fragment-stripped absolute target is not registered, that target URI;
sealing fails iff the returned list is non-empty. -/
def sealRegistry (reg : Registry) : List URL :=
  (reg.filter fun e => e.2.Ref.IsSet && !(definedInRegistry reg e.2.Ref.BaseURI)).map
    fun e => e.2.Ref.BaseURI

/-- Concrete post-order run: `{"items": [{}, {}]}` inserts the two
children at indices 0 and 1 and the root last at index 2. -/
def doc8 : JsonObj :=
  .cons "items" (.arr (.cons (.obj .nil) (.cons (.obj .nil) .nil))) .nil

/-- The registry produced by parsing `doc8`. -/
def reg8 : Registry :=
  [(⟨"", "/items/0"⟩, {}), (⟨"", "/items/1"⟩, {}),
   (⟨"", ""⟩, { Items := { IsSet := true, IsSingle := false, Schemas := [0, 1] } })]

/-- The "references to non-existent URIs" document of `TestValidatorSeal`:
`{"$ref": "http://example.com/1", "items": [{"$ref": ".../2"},
{"$ref": ".../3"}, {"$ref": ".../4#/fragment"}]}`. -/
def C3doc : JsonObj :=
  .cons "$ref" (.str "http://example.com/1")
    (.cons "items"
      (.arr (.cons (.obj (.cons "$ref" (.str "http://example.com/2") .nil))
        (.cons (.obj (.cons "$ref" (.str "http://example.com/3") .nil))
          (.cons (.obj (.cons "$ref" (.str "http://example.com/4#/fragment") .nil))
            .nil))))
      .nil)

/-- A document whose nested `items` schema carries both `$id` and a
same-document `$ref`. -/
def doc9 : JsonObj :=
  .cons "items"
    (.obj (.cons "$id" (.str "http://other/x")
      (.cons "$ref" (.str "#/foo") .nil))) .nil

/-- The registry the parser actually produces for `doc9`: the nested
node's `ID` stays unset and its `$ref` is resolved against the document
root's (empty) base URI, not against the nested `$id`. -/
def reg9 : Registry :=
  [(⟨"", "/items"⟩,
    { Ref := { IsSet := true, URI := ⟨"", "/foo"⟩, BaseURI := ⟨"", ""⟩,
               Ptr := ["foo"] } }),
   (⟨"", ""⟩, { Items := { IsSet := true, IsSingle := true, Schemas := [0] } })]

/-- Source `SimpleType` (the enumeration consumed by `assertSimpleType`). -/
inductive SimpleType where
  | IntegerSimpleType | NumberSimpleType | StringSimpleType
  | ObjectSimpleType | ArraySimpleType | BooleanSimpleType | NullSimpleType
deriving DecidableEq, Repr

/-- Go `math.Trunc` (round toward zero), on rationals. -/
def goTrunc (q : ℚ) : ℚ := if 0 ≤ q then ((⌊q⌋ : ℤ) : ℚ) else ((⌈q⌉ : ℤ) : ℚ)

/-- Go `math.Round` (round half away from zero), on rationals. -/
def goRound (q : ℚ) : ℚ :=
  if 0 ≤ q then ((⌊q + 1/2⌋ : ℤ) : ℚ) else ((⌈q - 1/2⌉ : ℤ) : ℚ)

/-- Go `math.Mod(x, y)`: `x - y*trunc(x/y)` (the result has the sign of
`x`; the source only calls it as `math.Mod(math.Abs(num), divisor)`). -/
def goMod (x y : ℚ) : ℚ := x - y * goTrunc (x / y)

/-- Source `assertSimpleType` (parser.go): the runtime-tag check of the early
validator; a number passes the `integer` case iff it equals its own
truncation (`num != math.Trunc(num)` fails). -/
def assertSimpleType : SimpleType → Json → Bool
  | .IntegerSimpleType, data =>
      match data with
      | .num q => decide (q = goTrunc q)
      | _ => false
  | .NumberSimpleType, data =>
      match data with | .num _ => true | _ => false
  | .StringSimpleType, data =>
      match data with | .str _ => true | _ => false
  | .ObjectSimpleType, data =>
      match data with | .obj _ => true | _ => false
  | .ArraySimpleType, data =>
      match data with | .arr _ => true | _ => false
  | .BooleanSimpleType, data =>
      match data with | .bool _ => true | _ => false
  | .NullSimpleType, data =>
      match data with | .null => true | _ => false

/-- The shape of `Document.Type` consumed by `Validator.IsValid`
(`IsSingle` / `Single` / `List`; the Go field `List` is spelled
`TList`). -/
structure TypeD where
  IsSingle : Bool := false
  Single : SimpleType := .NullSimpleType
  TList : List SimpleType := []
deriving DecidableEq, Repr

/-- The keyword fields of the early validator's `Document` that
`Validator.IsValid` consults (the Go field `Type` is spelled `Typ`). -/
structure DocumentD where
  Minimum : Option ℚ := none
  ExclusiveMinimum : Option ℚ := none
  Maximum : Option ℚ := none
  ExclusiveMaximum : Option ℚ := none
  MultipleOf : Option ℚ := none
  MaxLength : Option ℤ := none
  MinLength : Option ℤ := none
  Pattern : Option String := none
  Typ : Option TypeD := none
deriving DecidableEq, Repr

/-- The early validator's `Schema`: a trivial boolean schema
short-circuits everything, otherwise the `Document` keywords apply. -/
structure SchemaD where
  IsTrivial : Bool := false
  TrivialValue : Bool := false
  Document : DocumentD := {}
deriving DecidableEq, Repr

/-- Source `DefaultEpsilon` (parser.go): 1e-3. -/
def DefaultEpsilon : ℚ := 1 / 1000

/-- Source `Validator` (parser.go): a schema plus the `multipleOf` tolerance. -/
structure Validator where
  schema : SchemaD
  Epsilon : ℚ := DefaultEpsilon
deriving DecidableEq, Repr

/-- Source `NewValidator` (parser.go): wraps a schema with `DefaultEpsilon`. -/
def NewValidator (schema : SchemaD) : Validator :=
  { schema := schema, Epsilon := DefaultEpsilon }

/-- A Go panic raised inside `Validator.IsValid` (the `regexp.Compile`
failure branch carries `panic(err)`). -/
inductive VPanic where
  | invalidRegexPanic
deriving DecidableEq, Repr

/-- The `Type` clause at the end of `Validator.IsValid`: a single simple
type must match; for a list, validity fails only when every member
fails. -/
def typeClause (d : DocumentD) (data : Json) : Except VPanic Bool :=
  match d.Typ with
  | none => .ok true
  | some t =>
      if t.IsSingle then
        if !(assertSimpleType t.Single data) then .ok false else .ok true
      else
        if t.TList.all (fun st => !(assertSimpleType st data)) then .ok false
        else .ok true

/-- Source `Validator.IsValid` (parser.go).  The regexp engine is an external
collaborator: `rcompile` stands for `regexp.Compile`, returning `none`
exactly when compilation fails — in which case the source compiles the
pattern *during validation* and executes `panic(err)`, modelled as
`.error .invalidRegexPanic`.  Every other clause mirrors the source in
order: a keyword whose target type does not match the instance is
skipped, a failing check returns `false` immediately. -/
def IsValid (rcompile : String → Option (String → Bool)) (v : Validator)
    (data : Json) : Except VPanic Bool :=
  if v.schema.IsTrivial then .ok v.schema.TrivialValue
  else
    let d := v.schema.Document
    let failMin : Bool :=
      match d.Minimum, data with
      | some m, .num q => decide (q < m)
      | _, _ => false
    if failMin then .ok false else
    let failExMin : Bool :=
      match d.ExclusiveMinimum, data with
      | some m, .num q => decide (q ≤ m)
      | _, _ => false
    if failExMin then .ok false else
    let failMax : Bool :=
      match d.Maximum, data with
      | some m, .num q => decide (m < q)
      | _, _ => false
    if failMax then .ok false else
    let failExMax : Bool :=
      match d.ExclusiveMaximum, data with
      | some m, .num q => decide (m ≤ q)
      | _, _ => false
    if failExMax then .ok false else
    let failMulOf : Bool :=
      match d.MultipleOf, data with
      | some dv, .num q =>
          let mod := goMod |q| dv / dv
          decide (v.Epsilon < mod) && decide (mod < 1 - v.Epsilon)
      | _, _ => false
    if failMulOf then .ok false else
    let failMaxLen : Bool :=
      match d.MaxLength, data with
      | some m, .str s => decide (m < (s.toList.length : ℤ))
      | _, _ => false
    if failMaxLen then .ok false else
    let failMinLen : Bool :=
      match d.MinLength, data with
      | some m, .str s => decide ((s.toList.length : ℤ) < m)
      | _, _ => false
    if failMinLen then .ok false else
    match d.Pattern, data with
    | some p, .str sv =>
        match rcompile p with
        | none => .error .invalidRegexPanic
        | some re => if !(re sv) then .ok false else typeClause d data
    | _, _ => typeClause d data

/-- The `Type` field consumed by the vm's `execSchema` through
`Type.contains`; `none` models the nil pointer guarded by
`schema.Type != nil`. -/
structure TypeSetV where
  IsSingle : Bool := false
  Types : List JsonTypeT := []
deriving DecidableEq, Repr

/-- Source `contains` (the loop over the type set). -/
def TypeSetV.contains (t : TypeSetV) (typ : JsonTypeT) : Bool :=
  t.Types.any fun x => decide (x = typ)

mutual

/-- The compiled `Schema` consumed by the vm.  `typ` and `items` are the
fields `execSchema` (validator_test.go) consults; `ref` carries the
resolved `$ref` target URI and `allOf` the compositional members, both
executed as modelled from the spec (§4.3) since the source of the full
executor is absent.  Sub-schemas are embedded by value, as in the vm
revision (`schema.Items.Single : Schema`). -/
inductive SchemaV where
  | mk (ref : Option URL) (typ : Option TypeSetV) (items : ItemsV)
       (allOf : SchemaListV) : SchemaV

/-- The `Items` field: absent, a single sub-schema for every element, or
a positional tuple. -/
inductive ItemsV where
  | noItems : ItemsV
  | single (s : SchemaV) : ItemsV
  | tuple (ls : SchemaListV) : ItemsV

/-- Spine of `[]Schema`. -/
inductive SchemaListV where
  | nil : SchemaListV
  | cons (s : SchemaV) (tl : SchemaListV) : SchemaListV

end

/-- Field accessor: `schema.Ref`. -/
def SchemaV.ref : SchemaV → Option URL
  | .mk r _ _ _ => r

/-- Field accessor: `schema.Type`. -/
def SchemaV.typ : SchemaV → Option TypeSetV
  | .mk _ t _ _ => t

/-- Field accessor: `schema.Items`. -/
def SchemaV.items : SchemaV → ItemsV
  | .mk _ _ it _ => it

/-- Field accessor: `schema.AllOf`. -/
def SchemaV.allOf : SchemaV → SchemaListV
  | .mk _ _ _ ao => ao

/-- Length of a `SchemaListV` spine. -/
def lengthSL : SchemaListV → Nat
  | .nil => 0
  | .cons _ tl => lengthSL tl + 1

/-- Source `ValidationError` (vm.go): snapshot copies of both path stacks plus
the id of the schema context that reported. -/
structure ValidationError where
  InstancePath : List String
  SchemaPath : List String
  URI : URL
deriving DecidableEq, Repr

/-- Source `schemaStack` (vm.go): where we are in one schema context. -/
structure SchemaStackV where
  id : URL
  tokens : List String
deriving DecidableEq, Repr

/-- The vm's mutable state (`vm.stack.instance`, `vm.stack.schemas`,
`vm.errors`); the Go field `instance` is spelled `instanceTokens`. -/
structure VmSt where
  instanceTokens : List String := []
  schemas : List SchemaStackV := []
  errors : List ValidationError := []
deriving DecidableEq, Repr

/-- Configuration `ValidatorConfig` (spec §4.3): `MaxErrors = 0` means effectively
unbounded; `MaxStackDepth` defaults to 64. -/
structure ValidatorConfig where
  MaxErrors : Nat := 0
  MaxStackDepth : Nat := 64
deriving DecidableEq, Repr

/-- Execution-fatal vm failures.  `errMaxErrors` is the internal unwind
used once the error cap is reached (swallowed at top level);
`outOfFuel` is an artifact of the fuelled embedding of the
schema-structure recursion. -/
inductive VmErr where
  | stackOverflow | errMaxErrors | noSuchSchema | badFragment | outOfFuel
deriving DecidableEq, Repr

/-- Result of one vm step: the state threads through even when a fatal
failure unwinds (Go mutates `vm` in place and early-returns the error). -/
abbrev VmRes := VmSt × Option VmErr

/-- Sequencing of vm steps: a pending failure short-circuits. -/
def vmSeq (r : VmRes) (f : VmSt → VmRes) : VmRes :=
  match r with
  | (st, some e) => (st, some e)
  | (st, none) => f st

/-- Source `pushSchemaToken` (vm.go and validator_test.go, identical): append a
token to the top (last) schema stack, which is taken by pointer.  An
empty stack would be a Go panic; it is unreachable because `exec` always
pushes a schema stack first. -/
def pushSchemaToken (st : VmSt) (tok : String) : VmSt :=
  match st.schemas.getLast? with
  | none => st
  | some s =>
      { st with schemas :=
          st.schemas.dropLast ++ [{ s with tokens := s.tokens ++ [tok] }] }

/-- Source `popSchemaToken` as in the validator_test.go revision
(`s := &vm.stack.schemas[len(vm.stack.schemas)-1]`, a pointer): drop the
top schema stack's last token. -/
def popSchemaToken (st : VmSt) : VmSt :=
  match st.schemas.getLast? with
  | none => st
  | some s =>
      { st with schemas :=
          st.schemas.dropLast ++ [{ s with tokens := s.tokens.dropLast }] }

/-- Source `popSchemaToken` as in vm.go:
`s := vm.stack.schemas[len(vm.stack.schemas)-1]` copies the struct by
value, and `s.tokens = s.tokens[:len(s.tokens)-1]` truncates only the
copy's slice header — the vm's own stack is left unchanged. -/
def popSchemaTokenByValue (st : VmSt) : VmSt :=
  match st.schemas.getLast? with
  | none => st
  | some s =>
      let _copy := { s with tokens := s.tokens.dropLast }
      st

/-- Source `pushInstanceToken` (validator_test.go). -/
def pushInstanceToken (st : VmSt) (tok : String) : VmSt :=
  { st with instanceTokens := st.instanceTokens ++ [tok] }

/-- Source `popInstanceToken` (validator_test.go). -/
def popInstanceToken (st : VmSt) : VmSt :=
  { st with instanceTokens := st.instanceTokens.dropLast }

/-- Source `pushNewSchema` (vm.go): a `$ref` jump opens a fresh schema stack
tagged with the target schema's id and the fragment pointer tokens. -/
def pushNewSchema (st : VmSt) (id : URL) (tokens : List String) : VmSt :=
  { st with schemas := st.schemas ++ [{ id := id, tokens := tokens }] }

/-- Source `reportError` (vm.go): append one `ValidationError` carrying
snapshot copies of the instance path and of the top schema stack's
tokens and id.  The `MaxErrors` unwind is modelled from the spec/tests:
when the recorded count reaches `MaxErrors` (and the cap is enabled),
the vm aborts collection by returning the `errMaxErrors` sentinel. -/
def reportError (cfg : ValidatorConfig) (st : VmSt) : VmRes :=
  match st.schemas.getLast? with
  | none => (st, none)
  | some top =>
      let st' := { st with errors := st.errors ++
        [{ InstancePath := st.instanceTokens, SchemaPath := top.tokens,
           URI := top.id }] }
      if cfg.MaxErrors ≠ 0 ∧ cfg.MaxErrors ≤ st'.errors.length
      then (st', some .errMaxErrors) else (st', none)

/-- The `type`-failure sequence of `execSchema`: push the `"type"`
token, record the error, pop. -/
def reportTypeError (cfg : ValidatorConfig) (st : VmSt) : VmRes :=
  vmSeq (reportError cfg (pushSchemaToken st "type"))
    (fun st2 => (popSchemaToken st2, none))

/-- The type-switch checks of `execSchema` (validator_test.go): when
`Type` is set and does not admit the instance's runtime tag, one error
is reported at `"type"`; a number also satisfies `integer` iff it equals
`math.Round` of itself (`typeOk = val == math.Round(val)`). -/
def typeCheck (cfg : ValidatorConfig) (s : SchemaV) (inst : Json)
    (st : VmSt) : VmRes :=
  match s.typ with
  | none => (st, none)
  | some t =>
      match inst with
      | .null => if t.contains .null then (st, none) else reportTypeError cfg st
      | .bool _ => if t.contains .boolean then (st, none) else reportTypeError cfg st
      | .num q =>
          let typeOk : Bool :=
            if t.contains .integer then decide (q = goRound q) else false
          if !typeOk && !(t.contains .number) then reportTypeError cfg st
          else (st, none)
      | .str _ => if t.contains .string then (st, none) else reportTypeError cfg st
      | .arr _ => if t.contains .array then (st, none) else reportTypeError cfg st
      | .obj _ => if t.contains .object then (st, none) else reportTypeError cfg st

/-- The single-`items` loop of `execSchema`: every element is checked
against the same sub-schema with its index pushed on the instance path
(`f` is the executor for the sub-schema). -/
def execSingleLoop (f : Json → VmSt → VmRes) : Nat → JsonArr → VmSt → VmRes
  | _, .nil, st => (st, none)
  | i, .cons e rest, st =>
      vmSeq (vmSeq (f e (pushInstanceToken st (toString i)))
          (fun st2 => (popInstanceToken st2, none)))
        (fun st3 => execSingleLoop f (i + 1) rest st3)

/-- The tuple-`items` loop of `execSchema`
(`for i := 0; i < len(schema.Items.List) && i < len(val); i++`): only
positions below both lengths are checked, each against the tuple's
sub-schema at the same index, with the index pushed on both paths. -/
def execTupleLoop (f : SchemaV → Json → VmSt → VmRes) :
    Nat → SchemaListV → JsonArr → VmSt → VmRes
  | _, .nil, _, st => (st, none)
  | _, .cons _ _, .nil, st => (st, none)
  | i, .cons s ls, .cons v vs, st =>
      let tok := toString i
      vmSeq (vmSeq (f s v (pushSchemaToken (pushInstanceToken st tok) tok))
          (fun st2 => (popSchemaToken (popInstanceToken st2), none)))
        (fun st3 => execTupleLoop f (i + 1) ls vs st3)

/-- Modelled from the spec: the `allOf` loop (§4.3) — every member is
checked against the same instance, with the member index pushed on the
schema path. -/
def execAllOfLoop (f : SchemaV → Json → VmSt → VmRes) :
    Nat → SchemaListV → Json → VmSt → VmRes
  | _, .nil, _, st => (st, none)
  | i, .cons s ls, inst, st =>
      vmSeq (vmSeq (f s inst (pushSchemaToken st (toString i)))
          (fun st2 => (popSchemaToken st2, none)))
        (fun st3 => execAllOfLoop f (i + 1) ls inst st3)

mutual

/-- Number of schema nodes in a compiled schema (the canonical fuel for
`execS`: recursion into embedded sub-schemas shrinks it strictly). -/
def sizeS : SchemaV → Nat
  | .mk _ _ it ao => sizeItems it + sizeSL ao + 1

/-- Node count under an `Items` field. -/
def sizeItems : ItemsV → Nat
  | .noItems => 0
  | .single s => sizeS s
  | .tuple ls => sizeSL ls

/-- Node count of a schema list. -/
def sizeSL : SchemaListV → Nat
  | .nil => 0
  | .cons s tl => sizeS s + sizeSL tl

end

/-- The keyword body of `execSchema` for a schema without `$ref`
(split out so proofs can unfold it): `recur` executes embedded
sub-schemas.  `type` and `items` follow `execSchema` of
validator_test.go; `allOf` is modelled from the spec (§4.3). -/
def execBody (cfg : ValidatorConfig) (recur : SchemaV → Json → VmSt → VmRes)
    (s : SchemaV) (inst : Json) (st : VmSt) : VmRes :=
  vmSeq (typeCheck cfg s inst st) (fun st1 =>
    vmSeq
      (match inst with
       | .arr val =>
           match s.items with
           | .noItems => (st1, none)
           | .single sub =>
               vmSeq (execSingleLoop (fun e st' => recur sub e st') 0 val
                   (pushSchemaToken st1 "items"))
                 (fun st2 => (popSchemaToken st2, none))
           | .tuple ls =>
               vmSeq (execTupleLoop (fun s' v st' => recur s' v st') 0 ls val
                   (pushSchemaToken st1 "items"))
                 (fun st2 => (popSchemaToken st2, none))
       | _ => (st1, none))
      (fun st2 =>
        match s.allOf with
        | .nil => (st2, none)
        | .cons s0 tl =>
            vmSeq (execAllOfLoop (fun s' j st' => recur s' j st') 0
                (.cons s0 tl) inst (pushSchemaToken st2 "allOf"))
              (fun st3 => (popSchemaToken st3, none))))

/-- Source `execSchema`, fuelled on the schema structure (the fuel only bounds
recursion into embedded sub-schemas).  A set `$ref` short-circuits the
other keywords and is delegated to `refH` — the `$ref`-depth machinery
closing over the registry (spec §4.3). -/
def execS (cfg : ValidatorConfig) (refH : URL → Json → VmSt → VmRes) :
    Nat → SchemaV → Json → VmSt → VmRes
  | 0, s, inst, st =>
      match s.ref with
      | some u => refH u inst st
      | none => (st, some .outOfFuel)
  | n + 1, s, inst, st =>
      match s.ref with
      | some u => refH u inst st
      | none =>
          execBody cfg (fun s' j st' => execS cfg refH n s' j st') s inst st

/-- Modelled from the spec: `vm.exec` together with the `$ref` depth
ceiling (§4.3) — the fuel is the remaining `$ref` depth and exhausting
it aborts the entire call with a stack-overflow failure.  As in vm.go's
`exec`: the target URI's fragment is stripped for the registry lookup,
the fragment pointer becomes the fresh schema stack's initial tokens. -/
def execDepth (cfg : ValidatorConfig) (reg : URL → Option SchemaV) :
    Nat → URL → Json → VmSt → VmRes
  | 0, _, _, st => (st, some .stackOverflow)
  | n + 1, uri, inst, st =>
      let absoluteURI : URL := { uri with fragment := "" }
      match reg absoluteURI with
      | none => (st, some .noSuchSchema)
      | some schema =>
          match ptrParse uri.fragment with
          | none => (st, some .badFragment)
          | some fragToks =>
              execS cfg (fun u j st' => execDepth cfg reg n u j st')
                (sizeS schema) schema inst (pushNewSchema st absoluteURI fragToks)

/-- Result type `ValidationResult` (spec §6): the ordered error list plus the
validity predicate (empty-list check, `TestValidatorIsValid`). -/
structure ValidationResult where
  Errors : List ValidationError
deriving DecidableEq, Repr

/-- Source `ValidationResult.IsValid`: true iff no error was recorded. -/
def ValidationResult.IsValid (r : ValidationResult) : Bool := r.Errors.isEmpty

/-- Modelled from the spec: `Validate` — run the vm from the root URI
on fresh stacks with `MaxStackDepth` as the `$ref` depth budget.  A
`MaxErrors` unwind returns the errors collected so far (the
`TestValidatorMaxErrors` behaviour); a stack overflow aborts the call
with an error and no violation list. -/
def ValidateWith (cfg : ValidatorConfig) (reg : URL → Option SchemaV)
    (rootURI : URL) (inst : Json) : Except VmErr ValidationResult :=
  match execDepth cfg reg cfg.MaxStackDepth rootURI inst {} with
  | (st, none) => .ok ⟨st.errors⟩
  | (st, some .errMaxErrors) => .ok ⟨st.errors⟩
  | (_, some e) => .error e

/-- Modelled from the spec: the compiled registry of the single
document `{"$ref": "#"}` (`TestValidatorOverflow`): one root schema,
keyed by the empty base URI, whose `$ref` resolves to itself. -/
def overflowRegistry : URL → Option SchemaV := fun u =>
  if u = ⟨"", ""⟩ then some (.mk (some ⟨"", ""⟩) none .noItems .nil) else none

/-- Modelled from the spec: the compiled registry of the single
`TestValidatorMaxErrors` document
`{"allOf": [{"type": "null"}, {"$ref": "#"}]}`. -/
def maxErrorsRegistry : URL → Option SchemaV := fun u =>
  if u = ⟨"", ""⟩ then
    some (.mk none none .noItems
      (.cons (.mk none (some { IsSingle := true, Types := [.null] }) .noItems .nil)
        (.cons (.mk (some ⟨"", ""⟩) none .noItems .nil) .nil)))
  else none

/-- The error `TestValidatorMaxErrors` expects, five times: instance
path `[]`, schema path `["allOf","0","type"]`, zero URI. -/
def maxErrorsExpectedError : ValidationError :=
  { InstancePath := [], SchemaPath := ["allOf", "0", "type"], URI := ⟨"", ""⟩ }

/-- The error-cap invariant of one vm step: starting strictly below the
cap, the step never pushes the recorded error count above `m`, and only
an `errMaxErrors` unwind may end exactly at the cap. -/
def CapOk (m : Nat) (stIn : VmSt) (r : VmRes) : Prop :=
  stIn.errors.length < m →
    r.1.errors.length ≤ m ∧ (r.2 ≠ some .errMaxErrors → r.1.errors.length < m)

/-- The runtime tag of an instance (the discriminator of the vm's type
switch; numbers carry the single `number` tag). -/
def runtimeTag : Json → JsonTypeT
  | .null => .null
  | .bool _ => .boolean
  | .num _ => .number
  | .str _ => .string
  | .arr _ => .array
  | .obj _ => .object

/-- The compiled schema `{"type": ...}`: only the `type` keyword set. -/
def typeOnlySchema (single : Bool) (ts : List JsonTypeT) : SchemaV :=
  .mk none (some { IsSingle := single, Types := ts }) .noItems .nil

/-- A concrete vm state with one open schema context. -/
def c4state : VmSt :=
  { instanceTokens := [], schemas := [⟨⟨"", ""⟩, []⟩], errors := [] }

/-- A one-member tuple for the C10 witness. -/
def c10tuple : SchemaListV :=
  .cons (.mk none (some { IsSingle := true, Types := [.null] }) .noItems .nil) .nil

/-- A concrete vm state with one open schema stack holding one token. -/
def c7state : VmSt :=
  { instanceTokens := [], schemas := [⟨⟨"", ""⟩, ["a"]⟩], errors := [] }

/-! ## Theorems -/

/-- Erasing one key leaves every other key's lookup unchanged. -/
theorem JsonObj.lookup_erase_ne : ∀ (m : JsonObj) {k k' : String}, k' ≠ k →
    (m.erase k).lookup k' = m.lookup k'
  | .nil, _, _, _ => rfl
  | .cons a v tl, k, k', h => by
      by_cases hak : a = k
      · subst hak
        have h' : a ≠ k' := fun e => h e.symm
        simp [JsonObj.erase, JsonObj.lookup, h', JsonObj.lookup_erase_ne tl h]
      · simp [JsonObj.erase, JsonObj.lookup, hak, JsonObj.lookup_erase_ne tl h]

/-- Eliminates a successful `parseF` run into its sequential steps. -/
theorem parseF_succ_ok {n : Nat} {reg : Registry} {base : URL}
    {toks : List String} {input : JsonObj} {i : Nat} {reg' : Registry}
    (h : parseF (n + 1) reg base toks input = .ok (i, reg')) :
    ∃ base1 sid ref typ items reg1,
      parseIdStep toks base input = .ok (base1, sid) ∧
      parseRefStep base1 input = .ok ref ∧
      parseTypeStep input = .ok typ ∧
      parseItemsStep (fun r t o => parseF n r base1 t o) reg toks input
        = .ok (items, reg1) ∧
      i = reg1.length ∧
      reg' = reg1 ++ [({ pre := base1.pre, fragment := ptrToString toks },
                       { ID := sid, Ref := ref, Typ := typ, Items := items })] := by
  simp only [parseF, bind, Except.bind] at h
  cases hid : parseIdStep toks base input with
  | error e => simp only [hid] at h; exact Except.noConfusion h
  | ok pid =>
      obtain ⟨base1, sid⟩ := pid
      simp only [hid] at h
      cases href : parseRefStep base1 input with
      | error e => simp only [href] at h; exact Except.noConfusion h
      | ok ref =>
          simp only [href] at h
          cases htyp : parseTypeStep input with
          | error e => simp only [htyp] at h; exact Except.noConfusion h
          | ok typ =>
              simp only [htyp] at h
              cases hit : parseItemsStep
                  (fun r t o => parseF n r base1 t o) reg toks input with
              | error e => simp only [hit] at h; exact Except.noConfusion h
              | ok pit =>
                  obtain ⟨items, reg1⟩ := pit
                  simp only [hit] at h
                  cases h
                  exact ⟨base1, sid, ref, typ, items, reg1, rfl, href, rfl, hit,
                    rfl, rfl⟩

/-- Registry growth of one tuple-items loop: every sub-parse appends at
least its own node, and every returned child index is in range. -/
theorem parseTupleItems_bound
    {sub : Registry → List String → JsonObj → Except PErr (Nat × Registry)}
    (hsub : ∀ r t o c r', sub r t o = .ok (c, r') → r.length ≤ c ∧ c + 1 = r'.length) :
    ∀ (a : JsonArr) (reg : Registry) (toks : List String) (i : Nat)
      (cs : List Nat) (reg' : Registry),
      parseTupleItems sub reg toks i a = .ok (cs, reg') →
      reg.length ≤ reg'.length ∧ ∀ c ∈ cs, c < reg'.length
  | .nil, reg, toks, i, cs, reg', h => by
      simp only [parseTupleItems] at h
      cases h
      exact ⟨le_refl _, by simp⟩
  | .cons hd tl, reg, toks, i, cs, reg', h => by
      cases hd <;> simp only [parseTupleItems, bind, Except.bind] at h
      case' obj m =>
        cases hs : sub reg (toks ++ [toString i]) m with
        | error e => simp only [hs] at h; exact Except.noConfusion h
        | ok p =>
            obtain ⟨c, regc⟩ := p
            simp only [hs] at h
            cases hr : parseTupleItems sub regc toks (i + 1) tl with
            | error e => simp only [hr] at h; exact Except.noConfusion h
            | ok q =>
                obtain ⟨cs', reg''⟩ := q
                simp only [hr] at h
                cases h
                obtain ⟨h1, h2⟩ := hsub _ _ _ _ _ hs
                obtain ⟨h3, h4⟩ := parseTupleItems_bound hsub tl _ _ _ _ _ hr
                refine ⟨by omega, ?_⟩
                intro c' hc'
                rcases List.mem_cons.mp hc' with hc' | hc'
                · subst hc'; omega
                · exact h4 _ hc'
      all_goals exact Except.noConfusion h

/-- Registry growth of the `items` step. -/
theorem parseItemsStep_bound
    {sub : Registry → List String → JsonObj → Except PErr (Nat × Registry)}
    (hsub : ∀ r t o c r', sub r t o = .ok (c, r') → r.length ≤ c ∧ c + 1 = r'.length)
    {reg : Registry} {toks : List String} {input : JsonObj}
    {items : SchemaItemsP} {reg1 : Registry}
    (h : parseItemsStep sub reg toks input = .ok (items, reg1)) :
    reg.length ≤ reg1.length ∧ ∀ c ∈ items.Schemas, c < reg1.length := by
  simp only [parseItemsStep] at h
  cases hl : input.lookup "items" with
  | none =>
      simp only [hl] at h
      cases h
      exact ⟨le_refl _, by simp⟩
  | some j =>
      cases j <;> simp only [hl, bind, Except.bind] at h
      case' obj m =>
        cases hs : sub reg (toks ++ ["items"]) m with
        | error e => simp only [hs] at h; exact Except.noConfusion h
        | ok p =>
            obtain ⟨c, regc⟩ := p
            simp only [hs] at h
            cases h
            obtain ⟨h1, h2⟩ := hsub _ _ _ _ _ hs
            exact ⟨by omega, by intro c' hc'; simp at hc'; omega⟩
      case' arr a =>
        cases hs : parseTupleItems sub reg (toks ++ ["items"]) 0 a with
        | error e => simp only [hs] at h; exact Except.noConfusion h
        | ok p =>
            obtain ⟨cs, regc⟩ := p
            simp only [hs] at h
            cases h
            exact parseTupleItems_bound hsub _ _ _ _ _ _ hs
      all_goals exact Except.noConfusion h

/-- Each successful `parser.Parse` call appends at least its own node,
which is inserted last: the returned index is the final one. -/
theorem parseF_mono :
    ∀ (n : Nat) (reg : Registry) (base : URL) (toks : List String)
      (input : JsonObj) (i : Nat) (reg' : Registry),
      parseF n reg base toks input = .ok (i, reg') →
      reg.length ≤ i ∧ i + 1 = reg'.length
  | 0, reg, base, toks, input, i, reg', h => by cases h
  | n + 1, reg, base, toks, input, i, reg', h => by
      obtain ⟨base1, sid, ref, typ, items, reg1, hid, href, htyp, hit, hi, hr⟩ :=
        parseF_succ_ok h
      subst hi; subst hr
      have hb := parseItemsStep_bound
        (fun r t o c r' hro => parseF_mono n r base1 t o c r' hro) hit
      exact ⟨hb.1, by simp⟩

/-- Claim C8: during parsing, every schema node is inserted into the
registry only after all of its own nested sub-schemas (the schemas under
`items`) have been parsed and inserted; insertion order is a post-order
of the parse tree, so every child index recorded in a node\'s
`Items.Schemas` is strictly smaller than the node\'s own index, and the
node itself occupies the final slot of the registry it returns. -/
theorem parse_postorder {n : Nat} {reg : Registry} {base : URL}
    {toks : List String} {input : JsonObj} {i : Nat} {reg' : Registry}
    (h : parseF n reg base toks input = .ok (i, reg')) :
    i + 1 = reg'.length ∧
      ∃ e, reg'[i]? = some e ∧ ∀ c ∈ e.2.Items.Schemas, c < i := by
  cases n with
  | zero => cases h
  | succ n =>
      obtain ⟨base1, sid, ref, typ, items, reg1, hid, href, htyp, hit, hi, hr⟩ :=
        parseF_succ_ok h
      subst hi; subst hr
      have hb := parseItemsStep_bound
        (fun r t o c r' hro => parseF_mono n r base1 t o c r' hro) hit
      refine ⟨by simp, ⟨_, _⟩, List.getElem?_concat_length _ _, hb.2⟩

/-- Witness for `parse_postorder` at the concrete document `doc8`. -/
theorem parse_postorder_witness :
    2 + 1 = reg8.length ∧
      ∃ e, reg8[2]? = some e ∧ ∀ c ∈ e.2.Items.Schemas, c < 2 :=
  parse_postorder (show parseF 32 [] {} [] doc8 = .ok (2, reg8) from rfl)

/-- Claim C3: sealing the registry built from `C3doc` fails with the
missing-target list containing, for each referencing node in the order
those nodes were inserted (post-order: the three `items` children first,
the root last), the ref's absolute target URI with its fragment stripped
(`http://example.com/4#/fragment` is reported as `http://example.com/4`). -/
theorem seal_missing_uris_ordered :
    (parseRootSchema [] C3doc).map (fun p => sealRegistry p.2) =
      .ok [⟨"http://example.com/2", ""⟩, ⟨"http://example.com/3", ""⟩,
           ⟨"http://example.com/4", ""⟩, ⟨"http://example.com/1", ""⟩] := rfl

/-- Counterexample to claim C9 at `doc9`: the nested object's `$id` is
ignored (the parsed node's `ID` is the zero URL and its `$ref` target is
`⟨"", "/foo"⟩`, resolved against the root base), whereas resolving the
same `$ref` against the nested `$id` — what the claim prescribes — would
give a different target. -/
theorem nested_id_ignored_cex :
    parseRootSchema [] doc9 = .ok (1, reg9) ∧
      resolveRef (parseURL "http://other/x") "#/foo" ≠ ⟨"", "/foo"⟩ :=
  ⟨rfl, by decide⟩

/-- Claim C9 (amended): `$id` is consulted only at the document root;
for any non-root parse (non-empty pointer token stack) the parser's
result is unchanged when every `$id` member is removed from the object,
so `$ref` targets inside nested objects are resolved against the
document root's base URI. -/
theorem parse_nested_id_ignored (n : Nat) (reg : Registry) (base : URL)
    (toks : List String) (input : JsonObj) (h : toks ≠ []) :
    parseF n reg base toks (input.erase "$id") = parseF n reg base toks input := by
  cases n with
  | zero => rfl
  | succ n =>
      simp only [parseF]
      have hid : parseIdStep toks base (input.erase "$id")
          = parseIdStep toks base input := by
        simp [parseIdStep, h]
      have href : ∀ b, parseRefStep b (input.erase "$id") = parseRefStep b input := by
        intro b
        unfold parseRefStep
        rw [JsonObj.lookup_erase_ne input (by decide)]
      have htyp : parseTypeStep (input.erase "$id") = parseTypeStep input := by
        unfold parseTypeStep
        rw [JsonObj.lookup_erase_ne input (by decide)]
      have hit : ∀ sub r t, parseItemsStep sub r t (input.erase "$id")
          = parseItemsStep sub r t input := by
        intro sub r t
        unfold parseItemsStep
        rw [JsonObj.lookup_erase_ne input (by decide)]
      simp only [hid, href, htyp, hit]

/-- Witness for `parse_nested_id_ignored` at the nested object of `doc9`. -/
theorem parse_nested_id_ignored_witness :
    parseF 32 [] {} ["items"]
        ((JsonObj.cons "$id" (.str "http://other/x")
          (.cons "$ref" (.str "#/foo") .nil)).erase "$id")
      = parseF 32 [] {} ["items"]
        (JsonObj.cons "$id" (.str "http://other/x")
          (.cons "$ref" (.str "#/foo") .nil)) :=
  parse_nested_id_ignored 32 [] {} ["items"] _ (by simp)

/-- Lemma: `goTrunc` fixes integer casts. -/
theorem goTrunc_intCast (m : ℤ) : goTrunc (m : ℚ) = m := by
  unfold goTrunc; split <;> simp

/-- Lemma: `goRound` fixes integer casts. -/
theorem goRound_intCast (m : ℤ) : goRound (m : ℚ) = m := by
  unfold goRound
  split
  · rw [show ((m:ℚ) + 1/2) = (1/2 + (m:ℚ)) by ring, Int.floor_add_int]
    norm_num
  · rw [show ((m:ℚ) - 1/2) = (-(1/2) + (m:ℚ)) by ring, Int.ceil_add_int]
    norm_num

/-- A rational is a fixed point of `goTrunc` iff it is an integer. -/
theorem goTrunc_fixed_iff (q : ℚ) : q = goTrunc q ↔ ∃ m : ℤ, q = m := by
  constructor
  · intro h
    unfold goTrunc at h
    split at h
    · exact ⟨⌊q⌋, h⟩
    · exact ⟨⌈q⌉, h⟩
  · rintro ⟨m, rfl⟩; rw [goTrunc_intCast]

/-- A rational is a fixed point of `goRound` iff it is an integer. -/
theorem goRound_fixed_iff (q : ℚ) : q = goRound q ↔ ∃ m : ℤ, q = m := by
  constructor
  · intro h
    unfold goRound at h
    split at h
    · exact ⟨_, h⟩
    · exact ⟨_, h⟩
  · rintro ⟨m, rfl⟩; rw [goRound_intCast]

/-- A rational is an integer iff it is a fixed point of (mathematical)
rounding. -/
theorem round_fixed_iff (q : ℚ) : (∃ m : ℤ, q = m) ↔ q = ((round q : ℤ) : ℚ) := by
  constructor
  · rintro ⟨m, rfl⟩; rw [round_intCast]
  · intro h; exact ⟨round q, h⟩

/-- Claim C5: for a numeric instance `x`, divisor `dv > 0` and tolerance
`Epsilon = e`, the `multipleOf` check of `Validator.IsValid` passes iff
`min(mod, 1-mod) ≤ e`, where `mod = (|x| mod dv) / dv` — the tolerance
is applied symmetrically at both ends of the modulo range. -/
theorem multipleOf_epsilon_symmetric
    (rcompile : String → Option (String → Bool)) (x dv e : ℚ) (_hd : 0 < dv) :
    (IsValid rcompile
        { schema := { Document := { MultipleOf := some dv } }, Epsilon := e }
        (.num x) = .ok true)
      ↔ min (goMod |x| dv / dv) (1 - goMod |x| dv / dv) ≤ e := by
  simp only [IsValid, typeClause]
  simp only [Bool.false_eq_true, if_false]
  rw [min_le_iff]
  constructor
  · intro h
    by_contra hc
    push_neg at hc
    simp [show (e < goMod |x| dv / dv ∧ goMod |x| dv / dv < 1 - e) from
      ⟨hc.1, by linarith [hc.2]⟩] at h
  · intro h
    have hn : ¬(e < goMod |x| dv / dv ∧ goMod |x| dv / dv < 1 - e) := by
      rcases h with h | h
      · intro hp; linarith [hp.1]
      · intro hp; linarith [hp.2]
    simp [hn]

/-- Witness for `multipleOf_epsilon_symmetric` at `x = 4`, `dv = 2`,
`e = 1/1000`. -/
theorem multipleOf_epsilon_symmetric_witness :
    (0 : ℚ) < 2 ∧
      ((IsValid (fun _ => none)
          { schema := { Document := { MultipleOf := some 2 } },
            Epsilon := 1/1000 }
          (.num 4) = .ok true)
        ↔ min (goMod |(4 : ℚ)| 2 / 2) (1 - goMod |(4 : ℚ)| 2 / 2) ≤ 1/1000) :=
  ⟨by norm_num,
   multipleOf_epsilon_symmetric (fun _ => none) 4 2 (1/1000) (by norm_num)⟩

/-- Claim C6 (the code as written): `Validator.IsValid` compiles the
`pattern` regular expression only at validation time and panics when
compilation fails — for any regexp engine on which `"[[["` fails to
compile, validating the string `"x"` against a schema with
`pattern = "[[["` reaches the `panic(err)` branch instead of having been
rejected when the schema was compiled. -/
theorem pattern_panics_at_validation
    (rcompile : String → Option (String → Bool)) (h : rcompile "[[[" = none) :
    IsValid rcompile
        (NewValidator { Document := { Pattern := some "[[[" } })
        (.str "x") = .error .invalidRegexPanic := by
  simp [IsValid, NewValidator, h]

/-- Witness for `pattern_panics_at_validation` with the everywhere-failing
compiler. -/
theorem pattern_panics_at_validation_witness :
    IsValid (fun _ => none)
        (NewValidator { Document := { Pattern := some "[[[" } })
        (.str "x") = .error .invalidRegexPanic :=
  pattern_panics_at_validation (fun _ => none) rfl

/-- Every `exec` of the self-referential schema immediately jumps again,
so whatever fuel remains the run ends in the stack-overflow failure. -/
theorem execDepth_overflow_aux (cfg : ValidatorConfig) :
    ∀ (k : Nat) (inst : Json) (st : VmSt),
      (execDepth cfg overflowRegistry k ⟨"", ""⟩ inst st).2 = some .stackOverflow
  | 0, _, _ => rfl
  | k + 1, inst, st =>
      execDepth_overflow_aux cfg k inst (pushNewSchema st ⟨"", ""⟩ [])

/-- Claim C1: for the registry built from the single schema
`{"$ref": "#"}`, every instance and every configuration, the validation
call terminates and aborts with the stack-overflow failure returned as
an error once the `$ref` recursion exhausts `MaxStackDepth` — no
per-keyword violation list is produced. -/
theorem ref_cycle_overflows (cfg : ValidatorConfig) (inst : Json) :
    ValidateWith cfg overflowRegistry ⟨"", ""⟩ inst = .error .stackOverflow := by
  unfold ValidateWith
  have h := execDepth_overflow_aux cfg cfg.MaxStackDepth inst {}
  rcases hE : execDepth cfg overflowRegistry cfg.MaxStackDepth ⟨"", ""⟩ inst {}
    with ⟨st, e⟩
  rw [hE] at h
  obtain rfl : e = some .stackOverflow := h
  rfl

/-- Counterexample to claim C2 as stated: on the cyclic
`TestValidatorMaxErrors` schema with `MaxErrors = 5` and
`MaxStackDepth = 10`, reaching the cap halts the traversal — the run
returns ok with exactly the five capped errors and no stack-overflow
failure is detected, although the same traversal with a cap of 20 does
exhaust the depth budget and aborts with the overflow error. -/
theorem maxErrors_halts_traversal :
    ValidateWith ⟨5, 10⟩ maxErrorsRegistry ⟨"", ""⟩ (.bool true)
        = .ok ⟨List.replicate 5 maxErrorsExpectedError⟩ ∧
      ValidateWith ⟨20, 10⟩ maxErrorsRegistry ⟨"", ""⟩ (.bool true)
        = .error .stackOverflow :=
  ⟨rfl, rfl⟩

/-- Transfer `CapOk` along equal error lists of the input state. -/
theorem CapOk.of_errors_eq {m : Nat} {st1 st2 : VmSt} {r : VmRes}
    (he : st1.errors = st2.errors) (h : CapOk m st1 r) : CapOk m st2 r := by
  intro hlt
  exact h (by rw [he]; exact hlt)

/-- A step that keeps the error list and reports no failure is `CapOk`. -/
theorem capOk_of_errors_preserved {m : Nat} {st st2 : VmSt}
    (he : st2.errors = st.errors) : CapOk m st (st2, none) :=
  fun hlt => ⟨by rw [he]; omega, fun _ => by rw [he]; exact hlt⟩

@[simp] theorem errors_pushSchemaToken (st : VmSt) (t : String) :
    (pushSchemaToken st t).errors = st.errors := by
  unfold pushSchemaToken; cases st.schemas.getLast? <;> rfl

@[simp] theorem errors_popSchemaToken (st : VmSt) :
    (popSchemaToken st).errors = st.errors := by
  unfold popSchemaToken; cases st.schemas.getLast? <;> rfl

@[simp] theorem errors_pushInstanceToken (st : VmSt) (t : String) :
    (pushInstanceToken st t).errors = st.errors := rfl

@[simp] theorem errors_popInstanceToken (st : VmSt) :
    (popInstanceToken st).errors = st.errors := rfl

@[simp] theorem errors_pushNewSchema (st : VmSt) (id : URL) (toks : List String) :
    (pushNewSchema st id toks).errors = st.errors := rfl

/-- Lemma: `reportError` respects the cap: it appends one error and unwinds
with the sentinel exactly when the cap is reached. -/
theorem capOk_reportError (cfg : ValidatorConfig) (st : VmSt) :
    CapOk cfg.MaxErrors st (reportError cfg st) := by
  intro hlt
  unfold reportError
  cases st.schemas.getLast? with
  | none => exact ⟨le_of_lt hlt, fun _ => hlt⟩
  | some top =>
      dsimp only
      split
      · next hcond =>
          refine ⟨by simp; omega, fun hne => absurd rfl hne⟩
      · next hcond =>
          have hm0 : cfg.MaxErrors ≠ 0 := by omega
          have : ¬ cfg.MaxErrors ≤ st.errors.length + 1 := by
            intro hle; exact hcond ⟨hm0, by simpa using hle⟩
          exact ⟨by simp; omega, fun _ => by simp; omega⟩

/-- Sequencing preserves the cap invariant. -/
theorem capOk_vmSeq {m : Nat} {st : VmSt} {r : VmRes} {f : VmSt → VmRes}
    (h1 : CapOk m st r) (h2 : ∀ st', CapOk m st' (f st')) :
    CapOk m st (vmSeq r f) := by
  intro hlt
  rcases r with ⟨st1, e⟩
  cases e with
  | none => exact h2 st1 ((h1 hlt).2 (by simp))
  | some err => exact h1 hlt

/-- The `type` failure sequence respects the cap. -/
theorem capOk_reportTypeError (cfg : ValidatorConfig) (st : VmSt) :
    CapOk cfg.MaxErrors st (reportTypeError cfg st) := by
  unfold reportTypeError
  refine capOk_vmSeq ?_ ?_
  · exact CapOk.of_errors_eq (errors_pushSchemaToken st "type")
      (capOk_reportError cfg _)
  · intro st'
    exact capOk_of_errors_preserved (errors_popSchemaToken st')

/-- The type switch respects the cap. -/
theorem capOk_typeCheck (cfg : ValidatorConfig) (s : SchemaV) (inst : Json)
    (st : VmSt) : CapOk cfg.MaxErrors st (typeCheck cfg s inst st) := by
  unfold typeCheck
  cases s.typ with
  | none => exact capOk_of_errors_preserved rfl
  | some t =>
      cases inst <;> dsimp only <;>
        repeat' first
          | exact capOk_of_errors_preserved rfl
          | exact capOk_reportTypeError cfg st
          | split

/-- The single-`items` loop respects the cap when the element executor
does. -/
theorem capOk_execSingleLoop {m : Nat} {f : Json → VmSt → VmRes}
    (hf : ∀ e st', CapOk m st' (f e st')) :
    ∀ (i : Nat) (a : JsonArr) (st : VmSt), CapOk m st (execSingleLoop f i a st)
  | _, .nil, st => capOk_of_errors_preserved rfl
  | i, .cons e rest, st => by
      refine capOk_vmSeq (capOk_vmSeq ?_ ?_) ?_
      · exact CapOk.of_errors_eq (errors_pushInstanceToken st (toString i))
          (hf e (pushInstanceToken st (toString i)))
      · intro st2; exact capOk_of_errors_preserved rfl
      · intro st3; exact capOk_execSingleLoop hf (i + 1) rest st3

/-- The tuple-`items` loop respects the cap when the element executor
does. -/
theorem capOk_execTupleLoop {m : Nat} {f : SchemaV → Json → VmSt → VmRes}
    (hf : ∀ s v st', CapOk m st' (f s v st')) :
    ∀ (i : Nat) (ls : SchemaListV) (a : JsonArr) (st : VmSt),
      CapOk m st (execTupleLoop f i ls a st)
  | _, .nil, _, st => capOk_of_errors_preserved rfl
  | _, .cons _ _, .nil, st => capOk_of_errors_preserved rfl
  | i, .cons s ls, .cons v vs, st => by
      refine capOk_vmSeq (capOk_vmSeq ?_ ?_) ?_
      · exact CapOk.of_errors_eq (by simp) (hf s v _)
      · intro st2; exact capOk_of_errors_preserved (by simp)
      · intro st3; exact capOk_execTupleLoop hf (i + 1) ls vs st3

/-- The `allOf` loop respects the cap when the member executor does. -/
theorem capOk_execAllOfLoop {m : Nat} {f : SchemaV → Json → VmSt → VmRes}
    (hf : ∀ s j st', CapOk m st' (f s j st')) :
    ∀ (i : Nat) (ls : SchemaListV) (inst : Json) (st : VmSt),
      CapOk m st (execAllOfLoop f i ls inst st)
  | _, .nil, _, st => capOk_of_errors_preserved rfl
  | i, .cons s ls, inst, st => by
      refine capOk_vmSeq (capOk_vmSeq ?_ ?_) ?_
      · exact CapOk.of_errors_eq (by simp) (hf s inst _)
      · intro st2; exact capOk_of_errors_preserved (by simp)
      · intro st3; exact capOk_execAllOfLoop hf (i + 1) ls inst st3

/-- Lemma: `execSchema` respects the cap when the `$ref` handler does. -/
theorem capOk_execS (cfg : ValidatorConfig) {refH : URL → Json → VmSt → VmRes}
    (hrefH : ∀ u j st', CapOk cfg.MaxErrors st' (refH u j st')) :
    ∀ (n : Nat) (s : SchemaV) (inst : Json) (st : VmSt),
      CapOk cfg.MaxErrors st (execS cfg refH n s inst st) := by
  intro n
  induction n with
  | zero =>
      intro s inst st
      obtain ⟨r, t, it, ao⟩ := s
      cases r with
      | some u => exact hrefH u inst st
      | none => exact fun hlt => ⟨le_of_lt hlt, fun _ => hlt⟩
  | succ k ih =>
      intro s inst st
      obtain ⟨r, t, it, ao⟩ := s
      cases r with
      | some u => exact hrefH u inst st
      | none =>
          show CapOk _ _ (execBody cfg (fun s' j st' => execS cfg refH k s' j st')
            (.mk none t it ao) inst st)
          unfold execBody
          refine capOk_vmSeq (capOk_typeCheck cfg _ inst st) ?_
          intro st1
          refine capOk_vmSeq ?_ ?_
          · cases inst <;> dsimp only
            case arr val =>
              cases hit : (SchemaV.mk none t it ao).items with
              | noItems => exact capOk_of_errors_preserved rfl
              | single sub =>
                  refine capOk_vmSeq ?_ ?_
                  · exact CapOk.of_errors_eq (errors_pushSchemaToken st1 "items")
                      (capOk_execSingleLoop (fun e st' => ih sub e st') 0 val _)
                  · intro st2
                    exact capOk_of_errors_preserved (errors_popSchemaToken st2)
              | tuple ls =>
                  refine capOk_vmSeq ?_ ?_
                  · exact CapOk.of_errors_eq (errors_pushSchemaToken st1 "items")
                      (capOk_execTupleLoop (fun s' v st' => ih s' v st') 0 ls val _)
                  · intro st2
                    exact capOk_of_errors_preserved (errors_popSchemaToken st2)
            all_goals exact capOk_of_errors_preserved rfl
          · intro st2
            cases hao : (SchemaV.mk none t it ao).allOf with
            | nil => exact capOk_of_errors_preserved rfl
            | cons s0 tl =>
                refine capOk_vmSeq ?_ ?_
                · exact CapOk.of_errors_eq (errors_pushSchemaToken st2 "allOf")
                    (capOk_execAllOfLoop (fun s' j st' => ih s' j st') 0
                      (.cons s0 tl) inst _)
                · intro st3
                  exact capOk_of_errors_preserved (errors_popSchemaToken st3)

/-- A vm step that returns its input state unchanged respects the cap. -/
theorem capOk_trivial {m : Nat} {st : VmSt} {e : Option VmErr} :
    CapOk m st (st, e) :=
  fun hlt => ⟨le_of_lt hlt, fun _ => hlt⟩

/-- Lemma: `exec` (with the depth budget) respects the cap. -/
theorem capOk_execDepth (cfg : ValidatorConfig) (reg : URL → Option SchemaV) :
    ∀ (n : Nat) (uri : URL) (inst : Json) (st : VmSt),
      CapOk cfg.MaxErrors st (execDepth cfg reg n uri inst st) := by
  intro n
  induction n with
  | zero => intro uri inst st; exact capOk_trivial
  | succ k ih =>
      intro uri inst st
      unfold execDepth
      dsimp only
      split
      · exact capOk_trivial
      · split
        · exact capOk_trivial
        · exact CapOk.of_errors_eq (errors_pushNewSchema st _ _)
            (capOk_execS cfg (fun u j st' => ih u j st') (sizeS _) _ inst _)

/-- Claim C2 (amended): once `MaxErrors = N > 0` errors have been
recorded, the vm unwinds with the internal cap sentinel — no further
errors are appended *and the traversal halts*, so a `MaxStackDepth`
violation that would only occur beyond that point is not detected (see
`maxErrors_halts_traversal`); every successful run returns at most `N`
errors. -/
theorem maxErrors_cap_bound (cfg : ValidatorConfig) (reg : URL → Option SchemaV)
    (rootURI : URL) (inst : Json) (res : ValidationResult)
    (hm : 0 < cfg.MaxErrors)
    (h : ValidateWith cfg reg rootURI inst = .ok res) :
    res.Errors.length ≤ cfg.MaxErrors := by
  unfold ValidateWith at h
  have hc := capOk_execDepth cfg reg cfg.MaxStackDepth rootURI inst {}
  rcases hE : execDepth cfg reg cfg.MaxStackDepth rootURI inst {} with ⟨st, e⟩
  rw [hE] at h hc
  have hb := hc hm
  cases e with
  | none => cases h; exact hb.1
  | some err => cases err <;> first | exact Except.noConfusion h
                                    | (cases h; exact hb.1)

/-- Witness for `maxErrors_cap_bound` at the `TestValidatorMaxErrors`
run. -/
theorem maxErrors_cap_bound_witness :
    (0 : Nat) < 5 ∧
      (ValidationResult.mk (List.replicate 5 maxErrorsExpectedError)).Errors.length
        ≤ 5 :=
  ⟨by norm_num,
   maxErrors_cap_bound ⟨5, 10⟩ maxErrorsRegistry ⟨"", ""⟩ (.bool true)
     ⟨List.replicate 5 maxErrorsExpectedError⟩ (by norm_num) rfl⟩

/-- Lemma: `TypeSetV.contains` decides membership in the type set. -/
theorem TypeSetV.contains_iff (t : TypeSetV) (tag : JsonTypeT) :
    t.contains tag = true ↔ tag ∈ t.Types := by
  unfold TypeSetV.contains
  rw [List.any_eq_true]
  constructor
  · rintro ⟨x, hx, hd⟩
    exact (of_decide_eq_true hd) ▸ hx
  · intro h
    exact ⟨tag, h, by simp⟩

/-- For a schema carrying only `type`, `execSchema` is exactly the type
switch. -/
theorem execS_typeOnly (cfg : ValidatorConfig) (refH : URL → Json → VmSt → VmRes)
    (n : Nat) (single : Bool) (ts : List JsonTypeT) (inst : Json) (st : VmSt) :
    execS cfg refH (n + 1) (typeOnlySchema single ts) inst st
      = typeCheck cfg (typeOnlySchema single ts) inst st := by
  show execBody cfg (fun s' j st' => execS cfg refH n s' j st')
      (typeOnlySchema single ts) inst st = _
  unfold execBody
  rcases htc : typeCheck cfg (typeOnlySchema single ts) inst st with ⟨st1, e⟩
  cases e with
  | some err => rfl
  | none => cases inst <;> rfl

/-- A failed type check appends exactly one error. -/
theorem reportTypeError_errors (cfg : ValidatorConfig) (st : VmSt)
    (hne : st.schemas ≠ []) :
    ∃ e, (reportTypeError cfg st).1.errors = st.errors ++ [e] := by
  rcases List.eq_nil_or_concat st.schemas with h | ⟨init, l, h⟩
  · exact absurd h hne
  · rw [List.concat_eq_append] at h
    refine ⟨{ InstancePath := st.instanceTokens, SchemaPath := l.tokens ++ ["type"],
              URI := l.id }, ?_⟩
    unfold reportTypeError pushSchemaToken
    rw [h]
    simp only [List.getLast?_concat, List.dropLast_concat]
    unfold reportError
    dsimp only
    simp only [List.getLast?_concat]
    split
    · rfl
    · simp [vmSeq]

/-- Claim C4: against a schema whose `type` is `"integer"`, the vm's
type check passes a numeric instance `q` iff `q` equals its own rounding
(no error is appended exactly then), independent of sign; a non-numeric
instance passes iff another tag in the type set matches its runtime tag;
and the early validator's `assertSimpleType` agrees on the integer
check. -/
theorem type_integer_semantics (cfg : ValidatorConfig)
    (refH : URL → Json → VmSt → VmRes) (n : Nat) (st : VmSt)
    (hne : st.schemas ≠ []) :
    (∀ q : ℚ,
      ((execS cfg refH (n + 1) (typeOnlySchema true [.integer]) (.num q) st).1.errors
          = st.errors
        ↔ q = ((round q : ℤ) : ℚ)))
    ∧ (∀ (inst : Json) (single : Bool) (ts : List JsonTypeT),
        runtimeTag inst ≠ .number →
        ((execS cfg refH (n + 1) (typeOnlySchema single ts) inst st).1.errors
            = st.errors
          ↔ runtimeTag inst ∈ ts))
    ∧ (∀ q : ℚ,
        (assertSimpleType .IntegerSimpleType (.num q) = true
          ↔ q = ((round q : ℤ) : ℚ))) := by
  have happend : ∀ (e : ValidationError), st.errors ++ [e] ≠ st.errors := by
    intro e hcontra
    have := congrArg List.length hcontra
    simp at this
  refine ⟨?_, ?_, ?_⟩
  · intro q
    have hkey : typeCheck cfg (typeOnlySchema true [.integer]) (.num q) st
        = if q = goRound q then (st, none) else reportTypeError cfg st := by
      unfold typeCheck typeOnlySchema
      dsimp only [SchemaV.typ]
      cases hd : decide (q = goRound q) with
      | true =>
          rw [if_pos (of_decide_eq_true hd)]
          rfl
      | false =>
          rw [if_neg (of_decide_eq_false hd)]
          rfl
    rw [execS_typeOnly, hkey]
    by_cases hq : q = goRound q
    · rw [if_pos hq]
      exact iff_of_true rfl
        ((round_fixed_iff q).mp ((goRound_fixed_iff q).mp hq))
    · rw [if_neg hq]
      obtain ⟨e, he⟩ := reportTypeError_errors cfg st hne
      rw [he]
      exact iff_of_false (happend e)
        (fun hr => hq ((goRound_fixed_iff q).mpr ((round_fixed_iff q).mpr hr)))
  · intro inst single ts htag
    have main : ∀ tag : JsonTypeT,
        (((if (TypeSetV.mk single ts).contains tag = true then ((st, none) : VmRes)
            else reportTypeError cfg st)).1.errors = st.errors ↔ tag ∈ ts) := by
      intro tag
      by_cases hc : (TypeSetV.mk single ts).contains tag = true
      · rw [if_pos hc]
        exact iff_of_true rfl ((TypeSetV.contains_iff _ _).mp hc)
      · rw [if_neg hc]
        obtain ⟨e, he⟩ := reportTypeError_errors cfg st hne
        rw [he]
        exact iff_of_false (happend e)
          fun hm => hc ((TypeSetV.contains_iff _ _).mpr hm)
    cases inst with
    | num q => exact absurd rfl htag
    | null => rw [execS_typeOnly]; exact main .null
    | bool b => rw [execS_typeOnly]; exact main .boolean
    | str s => rw [execS_typeOnly]; exact main .string
    | arr a => rw [execS_typeOnly]; exact main .array
    | obj o => rw [execS_typeOnly]; exact main .object
  · intro q
    show decide (q = goTrunc q) = true ↔ _
    rw [decide_eq_true_eq, goTrunc_fixed_iff]
    exact round_fixed_iff q

/-- Witness for `type_integer_semantics` at `q = 3`. -/
theorem type_integer_semantics_witness :
    c4state.schemas ≠ [] ∧
      ((execS {} (fun _ _ st' => (st', none)) (0 + 1)
          (typeOnlySchema true [.integer]) (.num 3) c4state).1.errors
          = c4state.errors
        ↔ (3 : ℚ) = ((round (3 : ℚ) : ℤ) : ℚ)) :=
  ⟨by simp [c4state],
   (type_integer_semantics {} (fun _ _ st' => (st', none)) 0 c4state
     (by simp [c4state])).1 3⟩

/-- The tuple loop ignores array elements beyond the tuple length. -/
theorem execTupleLoop_append (f : SchemaV → Json → VmSt → VmRes) :
    ∀ (ls : SchemaListV) (val extra : JsonArr) (i : Nat) (st : VmSt),
      lengthSL ls ≤ val.length →
      execTupleLoop f i ls (val.append extra) st = execTupleLoop f i ls val st
  | .nil, val, extra, i, st, _ => rfl
  | .cons s tl, .nil, extra, i, st, h => by
      exact absurd h (by simp [lengthSL, JsonArr.length])
  | .cons s tl, .cons v vs, extra, i, st, h => by
      have hlen : lengthSL tl ≤ vs.length := by
        simp only [lengthSL, JsonArr.length] at h
        omega
      show vmSeq _ (fun st3 => execTupleLoop f (i + 1) tl (vs.append extra) st3)
        = vmSeq _ (fun st3 => execTupleLoop f (i + 1) tl vs st3)
      rw [show (fun st3 => execTupleLoop f (i + 1) tl (vs.append extra) st3)
            = (fun st3 => execTupleLoop f (i + 1) tl vs st3) from
          funext fun st3 => execTupleLoop_append f tl vs extra (i + 1) st3 hlen]

/-- Claim C10: with `items` in tuple mode and the instance array at
least as long as the tuple, appending further elements changes nothing:
the run of `execSchema` (state and outcome) is identical with or without
the extra elements, because only positions below both lengths are
checked, each against the tuple's sub-schema at the same index. -/
theorem items_tuple_extra_unchecked (cfg : ValidatorConfig)
    (refH : URL → Json → VmSt → VmRes) (n : Nat) (t : Option TypeSetV)
    (ls : SchemaListV) (val extra : JsonArr) (st : VmSt)
    (h : lengthSL ls ≤ val.length) :
    execS cfg refH n (.mk none t (.tuple ls) .nil) (.arr (val.append extra)) st
      = execS cfg refH n (.mk none t (.tuple ls) .nil) (.arr val) st := by
  cases n with
  | zero => rfl
  | succ k =>
      show execBody cfg (fun s' j st' => execS cfg refH k s' j st')
            (.mk none t (.tuple ls) .nil) (.arr (val.append extra)) st
        = execBody cfg (fun s' j st' => execS cfg refH k s' j st')
            (.mk none t (.tuple ls) .nil) (.arr val) st
      have htc : typeCheck cfg (.mk none t (.tuple ls) .nil)
            (.arr (val.append extra)) st
          = typeCheck cfg (.mk none t (.tuple ls) .nil) (.arr val) st := rfl
      unfold execBody
      rw [htc]
      congr 1
      funext st1
      dsimp only [SchemaV.items, SchemaV.allOf]
      rw [execTupleLoop_append _ ls val extra 0 _ h]

/-- Witness for `items_tuple_extra_unchecked`: `[null, 1]` against a
one-schema tuple behaves exactly like `[null]`. -/
theorem items_tuple_extra_unchecked_witness :
    lengthSL c10tuple ≤ (JsonArr.cons .null .nil).length ∧
      execS {} (fun _ _ st' => (st', none)) 2 (.mk none none (.tuple c10tuple) .nil)
          (.arr ((JsonArr.cons .null .nil).append (.cons (.num 1) .nil))) {}
        = execS {} (fun _ _ st' => (st', none)) 2 (.mk none none (.tuple c10tuple) .nil)
          (.arr (JsonArr.cons .null .nil)) {} :=
  ⟨by decide,
   items_tuple_extra_unchecked {} (fun _ _ st' => (st', none)) 2 none c10tuple
     (JsonArr.cons .null .nil) (.cons (.num 1) .nil) {} (by decide)⟩

/-- In the validator_test.go revision (pointer receiver),
`popSchemaToken` undoes `pushSchemaToken`, restoring the schema path
stack. -/
theorem popSchemaToken_push (st : VmSt) (hne : st.schemas ≠ []) (tok : String) :
    popSchemaToken (pushSchemaToken st tok) = st := by
  rcases List.eq_nil_or_concat st.schemas with h | ⟨init, l, h⟩
  · exact absurd h hne
  · rw [List.concat_eq_append] at h
    unfold pushSchemaToken popSchemaToken
    rw [h]
    simp only [List.getLast?_concat, List.dropLast_concat]
    rw [show init ++ [({ id := l.id, tokens := l.tokens } : SchemaStackV)]
          = st.schemas from by rw [h]]

/-- Claim C7 (the code as written): vm.go's `popSchemaToken` reads the
top schema stack into a by-value struct copy, so the pop after a
keyword check does not restore the stack — after pushing `"type"` and
popping, the schema path stack still holds the token and differs from
its state before the check. -/
theorem popSchemaToken_byvalue_noop :
    (popSchemaTokenByValue (pushSchemaToken c7state "type")).schemas
        = [⟨⟨"", ""⟩, ["a", "type"]⟩] ∧
      c7state.schemas = [⟨⟨"", ""⟩, ["a"]⟩] ∧
      (popSchemaTokenByValue (pushSchemaToken c7state "type")).schemas
        ≠ c7state.schemas :=
  ⟨rfl, rfl, by decide⟩

end JsonSchemaGo
